import Mathlib

/-!
Verification of the chunking / query-processing / hybrid-retrieval core of the
haiku.rag repository.

The development shallowly embeds, in Lean, the Python source of:
  * `src/haiku/rag/query_processor.py` (`clean_query`, `extract_keywords`,
    `process_for_fts`),
  * `src/haiku/rag/chunker.py` (`_preprocess_text`, `_find_best_split_point`,
    `chunk`),
  * `src/haiku/rag/store/repositories/chunk.py` (`create`,
    `create_chunks_for_document`, `get_by_document_id`, `search_chunks`,
    `search_chunks_fts`, `search_chunks_hybrid`).

Strings are modelled as `List Char`; Python regular-expression rewrites are
modelled by structurally recursive character-list transforms whose semantics
(leftmost, non-overlapping, greedy matching of `re.sub`) is stated in each
definition's doc comment.  Real-number scores computed with Python floats are
modelled over `ℚ` (every constant involved — 0.2, 0.3, 0.5, 1/(1+d), 1/(k+r) —
is rational, and the claims under study concern exact formulas, not rounding).
External collaborators (the tiktoken tokenizer, the embedding provider, the
SQLite vector and FTS5 engines) are parameters of the corresponding
definitions, constrained only by the interface properties the source relies
on.
-/

namespace HaikuRag

/-- CJK ideograph test: models the Python range test `'一' <= ch <= '鿿'`
and the regex class `[一-鿿]` used throughout `query_processor.py`. -/
def isCJK (c : Char) : Bool := 0x4e00 ≤ c.toNat && c.toNat ≤ 0x9fff

/-- Models the Python regex class `\s` / `str.split()` / `str.strip()`
whitespace test on the whitespace code points this code base manipulates
(space, tab, line feed, carriage return, vertical tab, form feed). -/
def isSpaceChar (c : Char) : Bool :=
  c = ' ' || c = '\t' || c = '\n' || c = '\r' || c = '\x0b' || c = '\x0c'

/-- Models Python `str.lower` on a single character: ASCII uppercase letters
map to their lowercase counterparts, every other code point manipulated by
this code base (digits, lowercase letters, punctuation, CJK ideographs) is a
fixed point of `str.lower`. -/
def pyLower (c : Char) : Char :=
  match c with
  | 'A' => 'a' | 'B' => 'b' | 'C' => 'c' | 'D' => 'd' | 'E' => 'e' | 'F' => 'f'
  | 'G' => 'g' | 'H' => 'h' | 'I' => 'i' | 'J' => 'j' | 'K' => 'k' | 'L' => 'l'
  | 'M' => 'm' | 'N' => 'n' | 'O' => 'o' | 'P' => 'p' | 'Q' => 'q' | 'R' => 'r'
  | 'S' => 's' | 'T' => 't' | 'U' => 'u' | 'V' => 'v' | 'W' => 'w' | 'X' => 'x'
  | 'Y' => 'y' | 'Z' => 'z'
  | c => c

/-- Python `str.lower` on a whole string. -/
def pyLowerStr (l : List Char) : List Char := l.map pyLower

/-- Models the Python regex class `\w` (Unicode word character) on the code
points this code base manipulates: ASCII alphanumerics, the underscore, and
CJK ideographs (all of which Python counts as word characters). -/
def isWordChar (c : Char) : Bool := c.isAlphanum || c = '_' || isCJK c

/-- Python `str.isdigit()` for ASCII content: nonempty and all digits. -/
def isPyDigit (l : List Char) : Bool := !l.isEmpty && l.all Char.isDigit

/-- Prefix test: `needle` is a prefix of `haystack` (character-wise). -/
def isPre : List Char → List Char → Bool
  | [], _ => true
  | _ :: _, [] => false
  | a :: as, b :: bs => a = b && isPre as bs

/-- Python's substring test `needle in haystack`. -/
def isSub (needle : List Char) : List Char → Bool
  | [] => isPre needle []
  | c :: rest => isPre needle (c :: rest) || isSub needle rest

/-- Drop leading whitespace, first half of Python `str.strip()`. -/
def dropLeadingWs (l : List Char) : List Char := l.dropWhile isSpaceChar

/-- Drop trailing whitespace, second half of Python `str.strip()`. -/
def dropTrailingWs : List Char → List Char
  | [] => []
  | c :: rest =>
    let r := dropTrailingWs rest
    if r.isEmpty && isSpaceChar c then [] else c :: r

/-- Python `str.strip()`. -/
def stripWs (l : List Char) : List Char := dropTrailingWs (dropLeadingWs l)

/-- Models `re.sub(r'\s+', ' ', text)`: replace every maximal whitespace run by a
single space (the space is emitted when the run's last character is reached,
which yields the same string as replacing the whole run at once). -/
def collapseWs : List Char → List Char
  | [] => []
  | [c] => if isSpaceChar c then [' '] else [c]
  | c :: d :: rest =>
    if isSpaceChar c then
      if isSpaceChar d then collapseWs (d :: rest)
      else ' ' :: collapseWs (d :: rest)
    else c :: collapseWs (d :: rest)

/-- One pass of `re.sub(r'\s+', ' ', query.strip())` — steps 1 and 3 of
`QueryProcessor.clean_query` (query_processor.py lines 37 and 43). -/
def normWs (l : List Char) : List Char := collapseWs (stripWs l)

/-- The characters kept by `clean_query`'s special-character removal: the
regex `[^一-鿿\w\s]` replaces everything outside these classes. -/
def keepChar (c : Char) : Bool := isCJK c || isWordChar c || isSpaceChar c

/-- Models `re.sub(r'[^一-鿿\w\s]', ' ', query)` — step 2 of `clean_query`
(query_processor.py line 40). -/
def removeSpecials (l : List Char) : List Char :=
  l.map fun c => if keepChar c then c else ' '

/-- Models `QueryProcessor.clean_query` (query_processor.py lines 34-45):
normalize whitespace, replace special characters by spaces, normalize
whitespace again. -/
def cleanQuery (q : List Char) : List Char := normWs (removeSpecials (normWs q))

/-- The head, if any, is not whitespace. -/
def headNotSpace : List Char → Bool
  | [] => true
  | c :: _ => !isSpaceChar c

/-- The last character, if any, is not whitespace. -/
def lastNotSpace : List Char → Bool
  | [] => true
  | [c] => !isSpaceChar c
  | _ :: c :: rest => lastNotSpace (c :: rest)

/-- No two adjacent whitespace characters. -/
def noWsRun : List Char → Bool
  | [] => true
  | c :: rest => (!isSpaceChar c || headNotSpace rest) && noWsRun rest

/-- Every whitespace character is a plain space. -/
def wsIsSpace (l : List Char) : Bool := l.all fun c => !isSpaceChar c || c = ' '

/-- Accumulator pass extracting the maximal runs of characters satisfying
`p`, in order.  This is the translation of `re.findall(p+, s)` for a
single-class pattern `p`: such a pattern matches exactly the maximal runs of
`p`-characters, left to right. -/
def maxRunsGo (p : Char → Bool) (cur : List Char) : List Char → List (List Char)
  | [] => if cur.isEmpty then [] else [cur]
  | c :: rest =>
    if p c then maxRunsGo p (cur ++ [c]) rest
    else if cur.isEmpty then maxRunsGo p [] rest
    else cur :: maxRunsGo p [] rest

/-- Maximal runs of `p`-characters of `l`, in order. -/
def maxRuns (p : Char → Bool) (l : List Char) : List (List Char) :=
  maxRunsGo p [] l

/-- Direct translation of the explicit grouping loop of `extract_keywords`
(query_processor.py lines 74-83): accumulate consecutive CJK characters into
`current_word`, flushing it on every non-CJK character (when nonempty) and at
the end of the string. -/
def groupCJKGo (cur : List Char) : List Char → List (List Char)
  | [] => if cur.isEmpty then [] else [cur]
  | c :: rest =>
    if isCJK c then groupCJKGo (cur ++ [c]) rest
    else if 1 ≤ cur.length then cur :: groupCJKGo [] rest
    else groupCJKGo [] rest

/-- Deduplication preserving first occurrences — the translation of the
`seen`-set loop at query_processor.py lines 103-108 (and of Python's
`dict.fromkeys`).  `seen` is the set of already-emitted elements. -/
def dedupFirst {α : Type} [DecidableEq α] (seen : List α) : List α → List α
  | [] => []
  | k :: rest =>
    if k ∈ seen then dedupFirst seen rest
    else k :: dedupFirst (k :: seen) rest

/-- Models `QueryProcessor.chinese_stop_words` (query_processor.py lines 10-15). -/
def chineseStopWords : List (List Char) :=
  ["的", "了", "在", "是", "我", "有", "和", "就", "不", "人", "都", "一", "一个",
   "上", "也", "很", "到", "说", "要", "去", "你", "会", "着", "没有", "看", "好",
   "自己", "这", "那", "里", "就是", "还是", "为了", "还有", "可以", "这个", "那个",
   "什么", "怎么", "为什么", "哪里", "哪个", "怎样", "如何", "多少", "几个"].map
    String.data

/-- Models `QueryProcessor.english_stop_words` (query_processor.py lines 17-23). -/
def englishStopWords : List (List Char) :=
  ["the", "a", "an", "and", "or", "but", "in", "on", "at", "to", "for", "of",
   "with", "by", "is", "are", "was", "were", "be", "been", "being", "have",
   "has", "had", "do", "does", "did", "will", "would", "could", "should",
   "may", "might", "must", "can", "this", "that", "these", "those", "i",
   "you", "he", "she", "it", "we", "they", "me", "him", "her", "us",
   "them"].map String.data

/-- Models `QueryProcessor.important_terms` (query_processor.py lines 26-32). -/
def importantTerms : List (List Char) :=
  ["股东大会", "年度报告", "财务报表", "董事会", "监事会", "审计", "合并", "收购",
   "投资", "利润", "营收", "资产", "负债", "现金流", "股价", "分红", "配股",
   "AGM", "annual meeting", "financial report", "board", "audit", "merger",
   "acquisition", "investment", "profit", "revenue", "assets", "liabilities",
   "cash flow", "stock price", "dividend"].map String.data

/-- The word filter of `extract_keywords` (query_processor.py lines 87-100):
a word is kept unless (it is a stop word and not protected) or (it is shorter
than 2 characters and not protected).  The lower-cased form is used for the
stop-word and protected-term membership tests only. -/
def keepWordB (w : List Char) : Bool :=
  let wl := pyLowerStr w
  let isStop := decide (wl ∈ chineseStopWords) || decide (wl ∈ englishStopWords)
  let isImp := decide (wl ∈ importantTerms)
  !(isStop && !isImp) && !(decide (w.length < 2) && !isImp)

/-- Models `QueryProcessor.extract_keywords` (query_processor.py lines 47-110).
The CJK-only block (lines 54-83) runs only when the cleaned query contains a
CJK character; it contributes, in order: `re.findall(r'\d+', ...)`,
`re.findall(r'[一-鿿]{2,}', ...)` and (guarded by `if meaningful_chars`) the
grouping loop.  The unconditional block contributes the `query.split()` words
that pass `keepWordB`, in their original case.  Finally duplicates are removed
keeping first occurrences. -/
def extractKeywords (query : List Char) : List (List Char) :=
  let q := cleanQuery query
  let cjkPart : List (List Char) :=
    if q.any isCJK then
      maxRuns Char.isDigit q
        ++ (maxRuns isCJK q).filter (fun r => 2 ≤ r.length)
        ++ (if (q.filter isCJK).isEmpty then [] else groupCJKGo [] q)
    else []
  let wordPart := (maxRuns (fun c => !isSpaceChar c) q).filter keepWordB
  dedupFirst [] (cjkPart ++ wordPart)

/-- Separator join, Python `sep.join(parts)`. -/
def joinWith (sep : List Char) (parts : List (List Char)) : List Char :=
  List.intercalate sep parts

/-- Models `QueryProcessor.process_for_fts` (query_processor.py lines 144-182):
build the lexical FTS5 query string by OR-joining the deduplicated
concatenation of: all keywords, the quoted full phrase (when more than one
keyword), all single-CJK-character keywords, and all pure-digit keywords.
When no keywords were extracted the raw query is returned unchanged. -/
def processForFts (query : List Char) : List Char :=
  let keywords := extractKeywords query
  if keywords.isEmpty then query
  else
    let meaningful := keywords.filter fun k => 1 ≤ k.length
    let phraseTerm : List (List Char) :=
      if 1 < keywords.length then [('"' :: joinWith [' '] keywords) ++ ['"']]
      else []
    let chineseChars := keywords.filter fun k => k.length = 1 && k.all isCJK
    let numbers := keywords.filter isPyDigit
    let uniqueTerms := dedupFirst [] (meaningful ++ phraseTerm ++ chineseChars ++ numbers)
    if uniqueTerms.isEmpty then query
    else joinWith (" OR ".data) uniqueTerms

/-- The `Chunker` chinese sentence endings (chunker.py line 49, also the group of
the preprocessing regex at line 30). -/
def chineseEndings : List Char := ['。', '！', '？', '；']

/-- Models `re.sub(r'([。！？；])', r'\1\n', text)` (chunker.py line 30): insert a
line feed after every CJK sentence terminator. -/
def cjkBreaks (l : List Char) : List Char :=
  l.flatMap fun c => if c ∈ chineseEndings then [c, '\n'] else [c]

/-- Latin sentence-ending punctuation, the group of the regex at
chunker.py line 33. -/
def isLatinEnd (c : Char) : Bool := c = '.' || c = '!' || c = '?' || c = ';'

/-- Head-is-whitespace test (`\s` lookahead). -/
def headIsSpace : List Char → Bool
  | [] => false
  | c :: _ => isSpaceChar c

/-- Models `re.sub(r'([.!?;])\s+', r'\1\n', text)` (chunker.py line 33), as a
left-to-right scan: when a Latin terminator is followed by whitespace, the
terminator and the whole (greedy, maximal) whitespace run are replaced by the
terminator plus a line feed; scanning resumes after the run, which the
`skipWs` flag consumes incrementally. -/
def latinBreaksGo (skipWs : Bool) : List Char → List Char
  | [] => []
  | c :: rest =>
    if skipWs && isSpaceChar c then latinBreaksGo true rest
    else if isLatinEnd c && headIsSpace rest then
      c :: '\n' :: latinBreaksGo true rest
    else c :: latinBreaksGo false rest

/-- Models `re.sub(r'\n\s*\n', '\n\n', text)` (chunker.py line 36), as a
left-to-right scan.  On reaching a line feed the scan enters run mode
(second constructor argument `some (pending, saw)`): `pending` holds, in
reverse, the non-LF whitespace seen since the last line feed of the run and
`saw` records whether a second line feed was seen.  The greedy match of
`\n\s*\n` ends at the last line feed of the whitespace run, so when the run
ends the match (if `saw`) is replaced by two line feeds and the trailing
`pending` whitespace is emitted unchanged. -/
def collapseBlankGo : Option (List Char × Bool) → List Char → List Char
  | none, [] => []
  | none, c :: rest =>
    if c = '\n' then collapseBlankGo (some ([], false)) rest
    else c :: collapseBlankGo none rest
  | some (pending, saw), [] =>
    (if saw then ['\n', '\n'] else ['\n']) ++ pending.reverse
  | some (pending, saw), c :: rest =>
    if c = '\n' then collapseBlankGo (some ([], true)) rest
    else if isSpaceChar c then collapseBlankGo (some (c :: pending, saw)) rest
    else (if saw then ['\n', '\n'] else ['\n']) ++ pending.reverse
      ++ c :: collapseBlankGo none rest

/-- Models `Chunker._preprocess_text` (chunker.py lines 23-38): collapse whitespace
runs, insert sentence boundaries after CJK and Latin terminators, collapse
blank lines, strip. -/
def preprocessText (l : List Char) : List Char :=
  stripWs (collapseBlankGo none (latinBreaksGo false (cjkBreaks (collapseWs l))))

/-- The raw boundary score of character offset `i` of `t`
(chunker.py lines 56-73): CJK terminator 10, Latin terminator followed by a
space 10, double line feed 8, line feed 5, comma 2, otherwise 0.  `t.getD i`
models `text[i]` (the code's guards ensure `i` is in range wherever the value
is used) and `(t.drop i).take 2` models `text[i:i+2]`. -/
def rawScore (t : List Char) (i : Nat) : ℚ :=
  if i < t.length ∧ t.getD i ' ' ∈ chineseEndings then 10
  else if i < t.length - 1 ∧
      (t.drop i).take 2 ∈ [['.', ' '], ['!', ' '], ['?', ' '], [';', ' ']] then 10
  else if i < t.length - 1 ∧ (t.drop i).take 2 = ['\n', '\n'] then 8
  else if i < t.length ∧ t.getD i ' ' = '\n' then 5
  else if i < t.length ∧ t.getD i ' ' ∈ ['，', ','] then 2
  else 0

/-- The distance-penalized score of offset `i` (chunker.py lines 76-77):
`score * (1 - |i - target| / search_window)`. -/
def finalScore (t : List Char) (target w i : Nat) : ℚ :=
  rawScore t i * (1 - |(i : ℚ) - (target : ℚ)| / (w : ℚ))

/-- The `for i in range(start_search, end_search)` loop of
`_find_best_split_point` (chunker.py lines 56-81), over the explicit list of
candidate offsets, threading the running best `(best_pos, best_score)` pair.
An offset wins only with a strictly larger penalized score, and a winning
offset with positive raw score is recorded as `i + 1`. -/
def fbspFold (t : List Char) (target w : Nat) :
    List Nat → Nat × ℚ → Nat × ℚ
  | [], best => best
  | i :: rest, (bp, bs) =>
    let s := rawScore t i
    let fs := s * (1 - |(i : ℚ) - (target : ℚ)| / (w : ℚ))
    if bs < fs then fbspFold t target w rest (if 0 < s then i + 1 else i, fs)
    else fbspFold t target w rest (bp, bs)

/-- Models `Chunker._find_best_split_point` (chunker.py lines 40-83).  The Python
`max(0, target_pos - search_window)` is truncated subtraction on `ℕ`. -/
def findBestSplitPoint (t : List Char) (targetPos : Nat) : Nat :=
  let w := min 100 (t.length / 4)
  let startSearch := targetPos - w
  let endSearch := min t.length (targetPos + w)
  (fbspFold t targetPos w (List.range' startSearch (endSearch - startSearch))
    (targetPos, 0)).1

/-- The tokenizer/configuration bundle of a `Chunker` instance
(chunker.py lines 17-21).  The tiktoken encoder is external code; it is
modelled by the pair `enc`/`dec` of functions between text and an abstract
token type `τ`, constrained in theorems only by the round-trip property the
chunker relies on. -/
structure Chunker (τ : Type) where
  enc : List Char → List τ
  dec : List τ → List Char
  chunkSize : Nat
  chunkOverlap : Nat

/-- The window advance of the chunk loop (chunker.py line 138):
`i += max(1, end_i - start_i - chunk_overlap)` (truncated subtraction on
`ℕ`, matching Python ints since `max` clamps at 1 anyway). -/
def nextStart (i endI overlap : Nat) : Nat := i + max 1 (endI - i - overlap)

/-- The `while i < len(encoded_tokens)` loop of `Chunker.chunk`
(chunker.py lines 108-138).  `(toks.drop i).take (endI - i)` models the
Python slice `encoded_tokens[start_i:end_i]` (clipped at the list's end). -/
def chunkLoop {τ : Type} (C : Chunker τ) (toks : List τ) (i : Nat) :
    List (List Char) :=
  if i < toks.length then
    let end0 := min (i + C.chunkSize) toks.length
    let endI :=
      if end0 < toks.length then
        let tempText := C.dec ((toks.drop i).take (end0 - i))
        let betterEnd := findBestSplitPoint tempText tempText.length
        if betterEnd < tempText.length then
          i + (C.enc (tempText.take betterEnd)).length
        else end0
      else end0
    let chunkText := stripWs (C.dec ((toks.drop i).take (endI - i)))
    let here := if chunkText.isEmpty then [] else [chunkText]
    if toks.length ≤ endI then here
    else here ++ chunkLoop C toks (nextStart i endI C.chunkOverlap)
  else []
termination_by toks.length - i
decreasing_by
  simp only [nextStart]
  omega

/-- Models `Chunker.chunk` (chunker.py lines 85-140): empty input yields no chunks;
after preprocessing, a token sequence strictly shorter than `chunk_size` is
returned whole; otherwise the sliding-window loop runs from offset 0. -/
def chunk {τ : Type} (C : Chunker τ) (text : List Char) : List (List Char) :=
  if text.isEmpty then []
  else
    let t := preprocessText text
    let toks := C.enc t
    if toks.length < C.chunkSize then [t]
    else chunkLoop C toks 0

/-- The character-level tokenizer: a concrete `Chunker` instance in which one
token is one character, used to witness theorems that are generic in the
tokenizer. -/
def charChunker (size overlap : Nat) : Chunker Char :=
  ⟨fun l => l, fun l => l, size, overlap⟩

/-- A row of the `chunks` table joined with its projected metadata. -/
structure ChunkRow where
  id : Nat
  documentId : Nat
  content : List Char
  orderMeta : Option Nat
deriving DecidableEq

/-- The connection-visible store state. -/
structure StoreState where
  chunks : List ChunkRow
  embeddings : List (Nat × List Int)
  ftsIndex : List (Nat × List Char)
  nextId : Nat
deriving DecidableEq

/-- Models `ChunkRepository.create` (chunk.py lines 18-60).  The row INSERT runs
first and assigns `entity.id = cursor.lastrowid`; only then is the injected
embedder called (`await self.embedder.embed`, modelled as an
`Option`-returning function whose `none` is a raised exception).  On `none`
the exception propagates with the row INSERT already executed and no
rollback; on `some` the embedding and FTS INSERTs follow.  The result's
second component is the assigned id on success and `none` on an embedder
failure. -/
def createChunk (embed : List Char → Option (List Int)) (st : StoreState)
    (documentId : Nat) (content : List Char) (orderMeta : Option Nat) :
    StoreState × Option Nat :=
  let rowId := st.nextId
  let st1 : StoreState :=
    { st with
      chunks := st.chunks ++ [⟨rowId, documentId, content, orderMeta⟩],
      nextId := rowId + 1 }
  match embed content with
  | none => (st1, none)
  | some vec =>
    let st2 := { st1 with embeddings := st1.embeddings ++ [(rowId, vec)] }
    let st3 := { st2 with ftsIndex := st2.ftsIndex ++ [(rowId, content)] }
    (st3, some rowId)

/-- The `for order, chunk_text in enumerate(chunk_texts)` loop of
`create_chunks_for_document` (chunk.py lines 201-208): create each chunk
sequentially with `order` in its metadata; an embedder failure propagates
out of the loop, leaving the store as the failed `create` left it.  The
boolean records whether the loop ran to completion. -/
def createLoop (embed : List Char → Option (List Int)) (documentId : Nat) :
    StoreState → Nat → List (List Char) → StoreState × Bool
  | st, _, [] => (st, true)
  | st, ord, t :: rest =>
    match createChunk embed st documentId t (some ord) with
    | (st1, none) => (st1, false)
    | (st1, some _) => createLoop embed documentId st1 (ord + 1) rest

/-- Models `ChunkRepository.create_chunks_for_document` (chunk.py lines 192-210):
run the chunker on the content, then create one chunk per resulting text. -/
def createChunksForDocument {τ : Type} (C : Chunker τ)
    (embed : List Char → Option (List Int)) (st : StoreState)
    (documentId : Nat) (content : List Char) : StoreState × Bool :=
  createLoop embed documentId st 0 (chunk C content)

/-- SQLite ordering on `JSON_EXTRACT(metadata, '$.order')` values: `NULL`
sorts before every number. -/
def orderKeyLe (a b : Option Nat) : Bool :=
  match a, b with
  | none, _ => true
  | some _, none => false
  | some x, some y => x ≤ y

/-- Models `ChunkRepository.get_by_document_id` (chunk.py lines 508-538): the rows
of the document, ordered by the `order` field of their metadata (the join
against `documents` only adds display columns and is dropped by the row
projection).  `ORDER BY` is modelled by a stable insertion sort. -/
def getByDocumentId (st : StoreState) (documentId : Nat) : List ChunkRow :=
  List.insertionSort (fun a b => orderKeyLe a.orderMeta b.orderMeta = true)
    (st.chunks.filter fun r => r.documentId == documentId)

/-- A candidate row returned by the sqlite-vec `MATCH` query: a chunk row
joined with its distance to the query embedding.  The document-join columns
(`uri`, document metadata) are display-only and omitted. -/
structure VecHit where
  id : Nat
  documentId : Nat
  content : List Char
  distance : ℚ
deriving DecidableEq

/-- Descending-score comparison used to model Python's
`sort(key=lambda x: x[1], reverse=True)` (a stable descending sort) and the
SQL `ORDER BY ... DESC`. -/
def scoreDesc {α : Type} (a b : α × ℚ) : Prop := b.2 ≤ a.2

instance {α : Type} : DecidableRel (@scoreDesc α) :=
  fun a b => inferInstanceAs (Decidable (b.2 ≤ a.2))

instance {α : Type} : IsTotal (α × ℚ) scoreDesc :=
  ⟨fun a b => le_total b.2 a.2⟩

instance {α : Type} : IsTrans (α × ℚ) scoreDesc :=
  ⟨fun _ _ _ h1 h2 => le_trans h2 h1⟩

/-- The keyword-boost loop of `search_chunks` (chunk.py lines 284-296),
translated branch for branch: a case-insensitive containment adds 0.3 plus
0.5 more for a pure-digit keyword; otherwise a single CJK-character keyword
adds 0.2 when contained case-sensitively. -/
def keywordBoost (keywords : List (List Char)) (content : List Char) : ℚ :=
  keywords.foldl
    (fun acc kw =>
      if isSub (pyLowerStr kw) (pyLowerStr content) then
        acc + 0.3 + (if isPyDigit kw then 0.5 else 0)
      else if kw.length = 1 && kw.all isCJK then
        if isSub kw content then acc + 0.2 else acc
      else acc)
    0

/-- Ascending-distance comparison modelling the sqlite-vec `ORDER BY
distance`. -/
def distAsc (a b : VecHit) : Prop := a.distance ≤ b.distance

instance : DecidableRel distAsc :=
  fun a b => inferInstanceAs (Decidable (a.distance ≤ b.distance))

/-- Models `ChunkRepository.search_chunks` (chunk.py lines 244-316).  The sqlite-vec
index is modelled by the list `index` of all candidate rows; the `MATCH ...
AND k = :k ORDER BY distance` query returns the `min(limit*10, 100)` nearest
rows, modelled as a stable sort by distance followed by `take`.  Each row is
scored `1/(1+distance)` plus the keyword boost, the list is re-sorted by
score descending (stable) and truncated to `limit`.  The keyword list is
recomputed per row in the source from the same query, hence hoisted. -/
def searchChunks (index : List VecHit) (query : List Char) (lim : Nat) :
    List (VecHit × ℚ) :=
  let searchLimit := min (lim * 10) 100
  let results := (List.insertionSort distAsc index).take searchLimit
  let keywords := extractKeywords query
  let scored := results.map fun r =>
    (r, 1 / (1 + r.distance) + keywordBoost keywords r.content)
  (List.insertionSort scoreDesc scored).take lim

/-- A row returned by an FTS5 `MATCH` query: a chunk row joined with its
FTS5 `rank` (a negative BM25 value for relevant rows). -/
structure FtsHit where
  id : Nat
  documentId : Nat
  content : List Char
  rank : ℚ
deriving DecidableEq

/-- The keyword-boost loop of `search_chunks_fts` (chunk.py lines 386-391):
0.2 per keyword contained case-insensitively in the content. -/
def ftsKeywordBoost (keywords : List (List Char)) (content : List Char) : ℚ :=
  keywords.foldl
    (fun acc kw =>
      if isSub (pyLowerStr kw) (pyLowerStr content) then acc + 0.2 else acc)
    0

/-- The `seen_chunks` deduplication loop of `search_chunks_fts`
(chunk.py lines 371-377): keep the first row for each chunk id. -/
def dedupHits (seen : List Nat) : List FtsHit → List FtsHit
  | [] => []
  | h :: rest =>
    if h.id ∈ seen then dedupHits seen rest
    else h :: dedupHits (h.id :: seen) rest

/-- Models `ChunkRepository.search_chunks_fts` (chunk.py lines 318-411).  The FTS5
engine is modelled by `ftsEngine`, mapping a query string to either its
ranked row list (`ORDER BY rank`; the SQL `LIMIT` is the `take`) or a raised
`sqlite3` error for a syntactically invalid query.  Strategy 1 runs the
processed query inside `try`; on an exception the `except` branch retries
with the plain OR-join of the keywords — but only when that keyword list is
nonempty — and an error of the retry itself propagates.  The collected rows
are deduplicated by id, scored `-rank` plus the keyword boost, sorted by
score descending and truncated to `limit`. -/
def searchChunksFts (ftsEngine : List Char → Except Unit (List FtsHit))
    (query : List Char) (lim : Nat) : Except Unit (List (FtsHit × ℚ)) :=
  let ftsQuery := processForFts query
  let searchLimit := min (lim * 5) 50
  let collected : Except Unit (List FtsHit) :=
    match ftsEngine ftsQuery with
    | .ok rows => .ok (rows.take searchLimit)
    | .error _ =>
      let keywords := extractKeywords query
      if keywords.isEmpty then .ok []
      else
        match ftsEngine (joinWith (" OR ".data) keywords) with
        | .ok rows => .ok (rows.take searchLimit)
        | .error e2 => .error e2
  match collected with
  | .error e => .error e
  | .ok results =>
    let uniqueResults := dedupHits [] results
    let keywords := extractKeywords query
    let scored := uniqueResults.map fun r =>
      (r, -r.rank + ftsKeywordBoost keywords r.content)
    .ok ((List.insertionSort scoreDesc scored).take lim)

/-- The RRF score of chunk id `cid` computed by the `rrf_scores` CTE
(chunk.py line 470): `COALESCE(1.0/(k + vector_rank), 0) +
COALESCE(1.0/(k + fts_rank), 0)`, where the ranks are the 1-based
`ROW_NUMBER()` positions in the two candidate lists and a missing id
contributes 0 for that term. -/
def rrfScore (k : Nat) (vecIds ftsIds : List Nat) (cid : Nat) : ℚ :=
  (match vecIds.findIdx? (· = cid) with
   | some idx => 1 / ((k : ℚ) + ((idx : ℚ) + 1))
   | none => 0)
  + (match ftsIds.findIdx? (· = cid) with
     | some idx => 1 / ((k : ℚ) + ((idx : ℚ) + 1))
     | none => 0)

/-- Models `ChunkRepository.search_chunks_hybrid` (chunk.py lines 413-506), as the
SQL it executes.  The two engines' rankings are the inputs: `vecRanking` is
the chunk-id list of the sqlite-vec `MATCH` ordered by distance (its
`k = limit*3` bound is the `take`), `ftsRanking` the chunk-id list of the
FTS5 `MATCH` ordered by rank (no limit in the CTE).  `all_chunks` is their
deduplicated union, each id is scored by `rrfScore`, and the final
`ORDER BY rrf_score DESC LIMIT :limit` is a stable descending sort plus
`take`.  Rows are projected to their chunk ids (the joined columns are
display-only). -/
def searchChunksHybrid (vecRanking ftsRanking : List Nat) (lim k : Nat) :
    List (Nat × ℚ) :=
  let vecIds := vecRanking.take (lim * 3)
  let allIds := dedupFirst [] (vecIds ++ ftsRanking)
  let scored := allIds.map fun cid => (cid, rrfScore k vecIds ftsRanking cid)
  (List.insertionSort scoreDesc scored).take lim

/-- An embedder whose every call raises. -/
def embedFail : List Char → Option (List Int) := fun _ => none

/-- An embedder whose every call returns the vector `[3]`. -/
def embedOk3 : List Char → Option (List Int) := fun _ => some [3]

/-- The output of `extract_keywords` as the amended claim C6 words it: when
the cleaned query contains a CJK character — and only then — the maximal
digit runs, the maximal CJK runs of length at least 2, and additionally every
maximal CJK run (single characters included); plus, in all cases, the
whitespace-delimited words surviving the stop-word and length filters in
their original case; deduplicated preserving first occurrences. -/
def extractKeywordsSpec (query : List Char) : List (List Char) :=
  let q := cleanQuery query
  let cjkPart : List (List Char) :=
    if q.any isCJK then
      maxRuns Char.isDigit q
        ++ (maxRuns isCJK q).filter (fun r => 2 ≤ r.length)
        ++ maxRuns isCJK q
    else []
  let wordPart := (maxRuns (fun c => !isSpaceChar c) q).filter keepWordB
  dedupFirst [] (cjkPart ++ wordPart)

/-- The vector-search keyword boost as the amended claim C3 words it: +0.3
per keyword contained case-insensitively in the content, +0.5 more when that
keyword is purely numeric — and nothing else. -/
def keywordBoostSpec (keywords : List (List Char)) (content : List Char) : ℚ :=
  keywords.foldl
    (fun acc kw =>
      if isSub (pyLowerStr kw) (pyLowerStr content) then
        acc + 0.3 + (if isPyDigit kw then 0.5 else 0)
      else acc)
    0

/-- Models `search_chunks` as the amended claim C3 words it: take the
`min(limit*10, 100)` nearest candidates by distance, score each
`1/(1+distance)` plus the spec-level keyword boost, re-sort by score
descending, truncate to `limit`. -/
def searchChunksSpec (index : List VecHit) (query : List Char) (lim : Nat) :
    List (VecHit × ℚ) :=
  let searchLimit := min (lim * 10) 100
  let results := (List.insertionSort distAsc index).take searchLimit
  let keywords := extractKeywords query
  let scored := results.map fun r =>
    (r, 1 / (1 + r.distance) + keywordBoostSpec keywords r.content)
  (List.insertionSort scoreDesc scored).take lim

/-- The text of the C5 counterexample: sixteen characters, so the search
window is `min(100, 16/4) = 4` around target 8 (candidates 4..11); a CJK
terminator at offset 5 (distance 3, penalized score `10*(1-3/4) = 5/2`) and
a line feed at offset 10 (distance 2, penalized score `5*(1-2/4) = 5/2`)
tie. -/
def cxSplitText : List Char :=
  ['a', 'a', 'a', 'a', 'a', '。', 'a', 'a', 'a', 'a', '\n', 'a', 'a', 'a',
   'a', 'a']

/-- The FTS engine of the C7 counterexample: it rejects the string `!!` as
syntactically invalid and returns one row for every other query. -/
def cxFtsEngine : List Char → Except Unit (List FtsHit) :=
  fun q => if q = "!!".data then .error () else .ok [⟨1, 1, ['x'], -1⟩]

/-- The FTS engine of the C7 witness: it rejects exactly the processed form
of the query `aa bb` and answers every other query with one row. -/
def wFtsEngine : List Char → Except Unit (List FtsHit) :=
  fun q => if q = processForFts "aa bb".data then .error ()
           else .ok [⟨2, 1, "aa".data, -2⟩]

/-- The rows `create_chunks_for_document` appends for a chunk-text sequence:
consecutive ids from `nid`, orders from `ord`. -/
def mkRows (documentId : Nat) : Nat → Nat → List (List Char) → List ChunkRow
  | _, _, [] => []
  | nid, ord, t :: rest =>
    ⟨nid, documentId, t, some ord⟩ :: mkRows documentId (nid + 1) (ord + 1) rest

/-- An embedder that succeeds on every input with the empty vector. -/
def wEmbed : List Char → Option (List Int) := fun _ => some []

/-! The theorems: supporting lemmas followed by the claim theorems, their
witnesses and counterexamples. -/

theorem collapseWs_ne_nil : ∀ l : List Char, l ≠ [] → collapseWs l ≠ []
  | [], h => absurd rfl h
  | [c], _ => by
    by_cases hc : isSpaceChar c <;> simp [collapseWs, hc]
  | c :: d :: rest, _ => by
    have ih := collapseWs_ne_nil (d :: rest) (by simp)
    by_cases h1 : isSpaceChar c <;> by_cases h2 : isSpaceChar d <;>
      simp [collapseWs, h1, h2, ih]

theorem collapseWs_cons_of_nonspace {c : Char} (rest : List Char)
    (h : isSpaceChar c = false) :
    ∃ t, collapseWs (c :: rest) = c :: t := by
  cases rest with
  | nil => exact ⟨[], by simp [collapseWs, h]⟩
  | cons d rest => exact ⟨collapseWs (d :: rest), by simp [collapseWs, h]⟩

theorem wsIsSpace_collapseWs : ∀ l : List Char, wsIsSpace (collapseWs l) = true
  | [] => by simp [collapseWs, wsIsSpace]
  | [c] => by
    by_cases hc : isSpaceChar c <;> simp [collapseWs, wsIsSpace, hc]
  | c :: d :: rest => by
    have ih := wsIsSpace_collapseWs (d :: rest)
    by_cases h1 : isSpaceChar c <;> by_cases h2 : isSpaceChar d <;>
      simp_all [collapseWs, wsIsSpace, h1, h2]

theorem noWsRun_cons (x : Char) (xs : List Char) :
    noWsRun (x :: xs) = ((!isSpaceChar x || headNotSpace xs) && noWsRun xs) := rfl

theorem noWsRun_collapseWs : ∀ l : List Char, noWsRun (collapseWs l) = true
  | [] => by simp [collapseWs, noWsRun]
  | [c] => by
    by_cases hc : isSpaceChar c <;>
      simp [collapseWs, noWsRun, headNotSpace, hc]
  | c :: d :: rest => by
    have ih := noWsRun_collapseWs (d :: rest)
    by_cases h1 : isSpaceChar c <;> by_cases h2 : isSpaceChar d
    · simpa [collapseWs, h1, h2] using ih
    · have h2f : isSpaceChar d = false := by simpa using h2
      obtain ⟨t, ht⟩ := collapseWs_cons_of_nonspace rest h2f
      have hstep : collapseWs (c :: d :: rest) = ' ' :: collapseWs (d :: rest) := by
        simp [collapseWs, h1, h2f]
      rw [hstep, noWsRun_cons, ht]
      simp [headNotSpace, h2f, ← ht, ih]
    · have h1f : isSpaceChar c = false := by simpa using h1
      have hstep : collapseWs (c :: d :: rest) = c :: collapseWs (d :: rest) := by
        simp [collapseWs, h1f]
      rw [hstep, noWsRun_cons]
      simp [h1f, ih]
    · have h1f : isSpaceChar c = false := by simpa using h1
      have hstep : collapseWs (c :: d :: rest) = c :: collapseWs (d :: rest) := by
        simp [collapseWs, h1f]
      rw [hstep, noWsRun_cons]
      simp [h1f, ih]

theorem headNotSpace_collapseWs :
    ∀ l : List Char, headNotSpace l = true → headNotSpace (collapseWs l) = true
  | [], _ => by simp [collapseWs, headNotSpace]
  | [c], h => by
    have hc : isSpaceChar c = false := by simpa [headNotSpace] using h
    simp [collapseWs, hc, headNotSpace]
  | c :: d :: rest, h => by
    have hc : isSpaceChar c = false := by simpa [headNotSpace] using h
    simp [collapseWs, hc, headNotSpace]

theorem lastNotSpace_cons_of_ne_nil {y : Char} {X : List Char} (h : X ≠ []) :
    lastNotSpace (y :: X) = lastNotSpace X := by
  cases X with
  | nil => exact absurd rfl h
  | cons a t => rfl

theorem lastNotSpace_collapseWs :
    ∀ l : List Char, lastNotSpace l = true → lastNotSpace (collapseWs l) = true
  | [], _ => by simp [collapseWs, lastNotSpace]
  | [c], h => by
    have hc : isSpaceChar c = false := by simpa [lastNotSpace] using h
    simp [collapseWs, hc, lastNotSpace, hc]
  | c :: d :: rest, h => by
    have htail : lastNotSpace (d :: rest) = true := by
      simpa [lastNotSpace] using h
    have ih := lastNotSpace_collapseWs (d :: rest) htail
    have hne := collapseWs_ne_nil (d :: rest) (by simp)
    by_cases h1 : isSpaceChar c <;> by_cases h2 : isSpaceChar d
    · have hstep : collapseWs (c :: d :: rest) = collapseWs (d :: rest) := by
        simp [collapseWs, h1, h2]
      rw [hstep]; exact ih
    · have h2f : isSpaceChar d = false := by simpa using h2
      have hstep : collapseWs (c :: d :: rest) = ' ' :: collapseWs (d :: rest) := by
        simp [collapseWs, h1, h2f]
      rw [hstep, lastNotSpace_cons_of_ne_nil hne]; exact ih
    · have h1f : isSpaceChar c = false := by simpa using h1
      have hstep : collapseWs (c :: d :: rest) = c :: collapseWs (d :: rest) := by
        simp [collapseWs, h1f]
      rw [hstep, lastNotSpace_cons_of_ne_nil hne]; exact ih
    · have h1f : isSpaceChar c = false := by simpa using h1
      have hstep : collapseWs (c :: d :: rest) = c :: collapseWs (d :: rest) := by
        simp [collapseWs, h1f]
      rw [hstep, lastNotSpace_cons_of_ne_nil hne]; exact ih

theorem headNotSpace_dropLeadingWs (l : List Char) :
    headNotSpace (dropLeadingWs l) = true := by
  induction l with
  | nil => simp [dropLeadingWs, headNotSpace]
  | cons c rest ih =>
    by_cases hc : isSpaceChar c
    · simpa [dropLeadingWs, List.dropWhile_cons, hc] using ih
    · have hcf : isSpaceChar c = false := by simpa using hc
      simp [dropLeadingWs, List.dropWhile_cons, hcf, headNotSpace]

theorem dropLeadingWs_fix {l : List Char} (h : headNotSpace l = true) :
    dropLeadingWs l = l := by
  cases l with
  | nil => rfl
  | cons c rest =>
    have hcf : isSpaceChar c = false := by simpa [headNotSpace] using h
    simp [dropLeadingWs, List.dropWhile_cons, hcf]

theorem lastNotSpace_dropTrailingWs : ∀ l : List Char,
    lastNotSpace (dropTrailingWs l) = true
  | [] => by simp [dropTrailingWs, lastNotSpace]
  | c :: rest => by
    have ih := lastNotSpace_dropTrailingWs rest
    by_cases hr : (dropTrailingWs rest).isEmpty
    · by_cases hc : isSpaceChar c
      · simp [dropTrailingWs, hr, hc, lastNotSpace]
      · have hcf : isSpaceChar c = false := by simpa using hc
        have hnil : dropTrailingWs rest = [] := by
          simpa [List.isEmpty_iff] using hr
        simp [dropTrailingWs, hr, hcf, hnil, lastNotSpace]
    · have hne : dropTrailingWs rest ≠ [] := by
        simpa [List.isEmpty_iff] using hr
      have hstep : dropTrailingWs (c :: rest) = c :: dropTrailingWs rest := by
        simp [dropTrailingWs, hr]
      rw [hstep, lastNotSpace_cons_of_ne_nil hne]
      exact ih

theorem headNotSpace_dropTrailingWs {l : List Char} (h : headNotSpace l = true) :
    headNotSpace (dropTrailingWs l) = true := by
  cases l with
  | nil => simp [dropTrailingWs, headNotSpace]
  | cons c rest =>
    have hcf : isSpaceChar c = false := by simpa [headNotSpace] using h
    by_cases hr : (dropTrailingWs rest).isEmpty
    · simp [dropTrailingWs, hr, hcf, headNotSpace]
    · simp [dropTrailingWs, hr, headNotSpace, hcf]

theorem dropTrailingWs_fix : ∀ {l : List Char}, lastNotSpace l = true →
    dropTrailingWs l = l
  | [], _ => rfl
  | [c], h => by
    have hcf : isSpaceChar c = false := by simpa [lastNotSpace] using h
    simp [dropTrailingWs, hcf]
  | c :: d :: rest, h => by
    have htail : lastNotSpace (d :: rest) = true := by
      simpa [lastNotSpace] using h
    have ih := dropTrailingWs_fix htail
    have hne : dropTrailingWs (d :: rest) ≠ [] := by
      rw [ih]; simp
    have hr : (dropTrailingWs (d :: rest)).isEmpty = false := by
      simpa [List.isEmpty_iff] using hne
    show (if (dropTrailingWs (d :: rest)).isEmpty && isSpaceChar c then []
      else c :: dropTrailingWs (d :: rest)) = c :: d :: rest
    rw [hr, ih]
    simp

theorem headNotSpace_stripWs (l : List Char) : headNotSpace (stripWs l) = true :=
  headNotSpace_dropTrailingWs (headNotSpace_dropLeadingWs l)

theorem lastNotSpace_stripWs (l : List Char) : lastNotSpace (stripWs l) = true :=
  lastNotSpace_dropTrailingWs (dropLeadingWs l)

theorem stripWs_fix {l : List Char} (h1 : headNotSpace l = true)
    (h2 : lastNotSpace l = true) : stripWs l = l := by
  unfold stripWs
  rw [dropLeadingWs_fix h1, dropTrailingWs_fix h2]

theorem stripWs_idem (l : List Char) : stripWs (stripWs l) = stripWs l :=
  stripWs_fix (headNotSpace_stripWs l) (lastNotSpace_stripWs l)

theorem collapseWs_fix : ∀ {l : List Char}, wsIsSpace l = true →
    noWsRun l = true → collapseWs l = l
  | [], _, _ => rfl
  | [c], hw, _ => by
    by_cases hc : isSpaceChar c
    · have : c = ' ' := by
        have := hw
        simp [wsIsSpace, hc] at this
        exact this
      simp [collapseWs, hc, this]
    · simp [collapseWs, hc]
  | c :: d :: rest, hw, hr => by
    have hwTail : wsIsSpace (d :: rest) = true := by
      simp [wsIsSpace] at hw ⊢
      exact hw.2
    have hrTail : noWsRun (d :: rest) = true := by
      rw [noWsRun_cons] at hr
      exact (Bool.and_eq_true_iff.mp hr).2
    have ih := collapseWs_fix hwTail hrTail
    by_cases hc : isSpaceChar c
    · have hceq : c = ' ' := by
        simp [wsIsSpace, hc] at hw
        exact hw.1
      have hd : isSpaceChar d = false := by
        rw [noWsRun_cons] at hr
        have := (Bool.and_eq_true_iff.mp hr).1
        simp [hc, headNotSpace] at this
        simpa using this
      have hstep : collapseWs (c :: d :: rest) = ' ' :: collapseWs (d :: rest) := by
        simp [collapseWs, hc, hd]
      rw [hstep, ih, ← hceq]
    · simp [collapseWs, hc, ih]

theorem normWs_headNotSpace (l : List Char) : headNotSpace (normWs l) = true :=
  headNotSpace_collapseWs _ (headNotSpace_stripWs l)

theorem normWs_lastNotSpace (l : List Char) : lastNotSpace (normWs l) = true :=
  lastNotSpace_collapseWs _ (lastNotSpace_stripWs l)

theorem normWs_wsIsSpace (l : List Char) : wsIsSpace (normWs l) = true :=
  wsIsSpace_collapseWs _

theorem normWs_noWsRun (l : List Char) : noWsRun (normWs l) = true :=
  noWsRun_collapseWs _

theorem normWs_fix {l : List Char} (h1 : headNotSpace l = true)
    (h2 : lastNotSpace l = true) (h3 : wsIsSpace l = true)
    (h4 : noWsRun l = true) : normWs l = l := by
  unfold normWs
  rw [stripWs_fix h1 h2, collapseWs_fix h3 h4]

theorem mem_collapseWs : ∀ {l : List Char} {c : Char}, c ∈ collapseWs l →
    c = ' ' ∨ c ∈ l
  | [], c, h => by simp [collapseWs] at h
  | [d], c, h => by
    by_cases hd : isSpaceChar d <;> simp [collapseWs, hd] at h <;> simp [h]
  | d :: e :: rest, c, h => by
    by_cases h1 : isSpaceChar d <;> by_cases h2 : isSpaceChar e
    · simp [collapseWs, h1, h2] at h
      rcases mem_collapseWs h with h3 | h3
      · exact Or.inl h3
      · exact Or.inr (List.mem_cons_of_mem d h3)
    · have h2f : isSpaceChar e = false := by simpa using h2
      have hstep : collapseWs (d :: e :: rest) = ' ' :: collapseWs (e :: rest) := by
        simp [collapseWs, h1, h2f]
      rw [hstep] at h
      rcases List.mem_cons.mp h with h3 | h3
      · exact Or.inl h3
      · rcases mem_collapseWs h3 with h4 | h4
        · exact Or.inl h4
        · exact Or.inr (List.mem_cons_of_mem d h4)
    all_goals {
      have h1f : isSpaceChar d = false := by simpa using h1
      have hstep : collapseWs (d :: e :: rest) = d :: collapseWs (e :: rest) := by
        simp [collapseWs, h1f]
      rw [hstep] at h
      rcases List.mem_cons.mp h with h3 | h3
      · exact Or.inr (by simp [h3])
      · rcases mem_collapseWs h3 with h4 | h4
        · exact Or.inl h4
        · exact Or.inr (List.mem_cons_of_mem d h4)
    }

theorem mem_dropTrailingWs : ∀ {l : List Char} {c : Char},
    c ∈ dropTrailingWs l → c ∈ l
  | [], c, h => by simp [dropTrailingWs] at h
  | d :: rest, c, h => by
    by_cases hr : ((dropTrailingWs rest).isEmpty && isSpaceChar d)
    · simp [dropTrailingWs, hr] at h
    · simp only [dropTrailingWs, hr, if_false] at h
      rcases List.mem_cons.mp h with h3 | h3
      · simp [h3]
      · exact List.mem_cons_of_mem d (mem_dropTrailingWs h3)

theorem mem_stripWs {l : List Char} {c : Char} (h : c ∈ stripWs l) : c ∈ l := by
  have h1 := mem_dropTrailingWs h
  exact (List.dropWhile_sublist isSpaceChar).subset h1

theorem mem_normWs {l : List Char} {c : Char} (h : c ∈ normWs l) :
    c = ' ' ∨ c ∈ l := by
  rcases mem_collapseWs h with h1 | h1
  · exact Or.inl h1
  · exact Or.inr (mem_stripWs h1)

theorem keepChar_mem_cleanQuery {q : List Char} {c : Char}
    (h : c ∈ cleanQuery q) : keepChar c = true := by
  rcases mem_normWs h with h1 | h1
  · simp [h1, keepChar, isSpaceChar]
  · simp only [removeSpecials, List.mem_map] at h1
    obtain ⟨a, _, ha⟩ := h1
    by_cases hk : keepChar a
    · rw [if_pos hk] at ha
      rw [← ha]; exact hk
    · rw [if_neg hk] at ha
      simp [← ha, keepChar, isSpaceChar]

theorem removeSpecials_fix {l : List Char}
    (h : ∀ c ∈ l, keepChar c = true) : removeSpecials l = l := by
  unfold removeSpecials
  rw [List.map_congr_left (fun a ha => by rw [if_pos (h a ha)]), List.map_id']

theorem cleanQuery_idem (q : List Char) : cleanQuery (cleanQuery q) = cleanQuery q := by
  have hfix : removeSpecials (cleanQuery q) = cleanQuery q :=
    removeSpecials_fix fun c hc => keepChar_mem_cleanQuery hc
  have hn1 : normWs (cleanQuery q) = cleanQuery q :=
    normWs_fix (normWs_headNotSpace _) (normWs_lastNotSpace _)
      (normWs_wsIsSpace _) (normWs_noWsRun _)
  show normWs (removeSpecials (normWs (cleanQuery q))) = cleanQuery q
  rw [hn1, hfix, hn1]

theorem groupCJKGo_eq_maxRunsGo : ∀ (l cur : List Char),
    groupCJKGo cur l = maxRunsGo isCJK cur l
  | [], cur => rfl
  | c :: rest, cur => by
    by_cases hc : isCJK c
    · simp [groupCJKGo, maxRunsGo, hc, groupCJKGo_eq_maxRunsGo rest]
    · by_cases hcur : cur.isEmpty
      · have : ¬ 1 ≤ cur.length := by
          simp [List.isEmpty_iff] at hcur
          simp [hcur]
        simp [groupCJKGo, maxRunsGo, hc, hcur, this, groupCJKGo_eq_maxRunsGo rest]
      · have : 1 ≤ cur.length := by
          simp [List.isEmpty_iff] at hcur
          exact List.length_pos.mpr hcur
        simp [groupCJKGo, maxRunsGo, hc, hcur, this, groupCJKGo_eq_maxRunsGo rest]

/-- Claim C10: `clean_query` is idempotent: for every input string `q`,
`clean_query(clean_query(q)) = clean_query(q)`; the output consists only of
CJK ideographs, word characters and single internal spaces, with no leading
or trailing whitespace, and is a fixed point of the function. -/
theorem claim_C10_clean_query_idempotent (q : List Char) :
    cleanQuery (cleanQuery q) = cleanQuery q
    ∧ (∀ c ∈ cleanQuery q, isCJK c = true ∨ isWordChar c = true ∨ c = ' ')
    ∧ headNotSpace (cleanQuery q) = true
    ∧ lastNotSpace (cleanQuery q) = true
    ∧ noWsRun (cleanQuery q) = true := by
  refine ⟨cleanQuery_idem q, ?_, normWs_headNotSpace _, normWs_lastNotSpace _,
    normWs_noWsRun _⟩
  intro c hc
  by_cases hw : isSpaceChar c
  · right; right
    have hws := normWs_wsIsSpace (removeSpecials (normWs q))
    simp only [wsIsSpace, List.all_eq_true] at hws
    have := hws c hc
    simpa [hw] using this
  · have hk : isCJK c = true ∨ isWordChar c = true ∨ isSpaceChar c = true := by
      simpa [keepChar, Bool.or_eq_true, or_assoc] using keepChar_mem_cleanQuery hc
    rcases hk with h | h | h
    · exact Or.inl h
    · exact Or.inr (Or.inl h)
    · exact absurd h (by simpa using hw)

/-- Witness for C10 at a concrete query. -/
theorem claim_C10_witness :
    cleanQuery (cleanQuery " a  b!".data) = cleanQuery " a  b!".data :=
  (claim_C10_clean_query_idempotent " a  b!".data).1

/-- Claim C8: The window advance of `Chunker.chunk`,
`start += max(1, (end - start) - chunk_overlap)`, strictly increases `start`
on every iteration — in particular when the overlap is at least the window
size the advance is exactly one unit — which is the decreasing measure that
makes the `chunkLoop` recursion (and hence `chunk`) terminate on every input
and configuration. -/
theorem claim_C8_advance_strictly_increases (i endI overlap : Nat) :
    i < nextStart i endI overlap
    ∧ (endI - i ≤ overlap → nextStart i endI overlap = i + 1) := by
  constructor
  · have := Nat.le_max_left 1 (endI - i - overlap)
    unfold nextStart
    omega
  · intro h
    have h0 : endI - i - overlap = 0 := by omega
    unfold nextStart
    rw [h0]
    simp

/-- Witness for C8 at a window where the overlap exceeds the window size. -/
theorem claim_C8_witness :
    0 < nextStart 0 5 10 ∧ nextStart 0 5 10 = 0 + 1 :=
  ⟨(claim_C8_advance_strictly_increases 0 5 10).1,
   (claim_C8_advance_strictly_increases 0 5 10).2 (by decide)⟩

/-- Claim C1 counterexample: The claim says an embedder failure inside
`create` leaves the store unchanged (no chunk row).  On an empty store with
a failing embedder, `create` raises (`none` result) with the chunk row
already inserted into the connection state: the post-state differs from the
pre-state and contains the row. -/
theorem claim_C1_counterexample :
    (createChunk embedFail ⟨[], [], [], 1⟩ 7 ['x'] none).2 = none
    ∧ (createChunk embedFail ⟨[], [], [], 1⟩ 7 ['x'] none).1.chunks
        = [⟨1, 7, ['x'], none⟩]
    ∧ (createChunk embedFail ⟨[], [], [], 1⟩ 7 ['x'] none).1
        ≠ (⟨[], [], [], 1⟩ : StoreState) := by
  refine ⟨rfl, rfl, ?_⟩
  decide

/-- Claim C1, amended: `create` first executes the chunk-row INSERT and only
then calls the embedder, and it installs no rollback: if the embedder call
fails, `create` raises with the new chunk row still present in the
connection state (and no embedding and no FTS entry for its id); on success
all three artifacts exist for the assigned id `st.nextId`, which is
returned. -/
theorem claim_C1_create_partial_on_failure
    (embed : List Char → Option (List Int)) (st : StoreState)
    (documentId : Nat) (content : List Char) (orderMeta : Option Nat) :
    (embed content = none →
      createChunk embed st documentId content orderMeta
        = (⟨st.chunks ++ [⟨st.nextId, documentId, content, orderMeta⟩],
            st.embeddings, st.ftsIndex, st.nextId + 1⟩, none))
    ∧ ∀ vec, embed content = some vec →
        createChunk embed st documentId content orderMeta
          = (⟨st.chunks ++ [⟨st.nextId, documentId, content, orderMeta⟩],
              st.embeddings ++ [(st.nextId, vec)],
              st.ftsIndex ++ [(st.nextId, content)],
              st.nextId + 1⟩, some st.nextId) := by
  constructor
  · intro h
    simp [createChunk, h]
  · intro vec h
    simp [createChunk, h]

/-- Witness for C1 (amended) on both a failing and a succeeding embedder. -/
theorem claim_C1_witness :
    createChunk embedFail ⟨[], [], [], 1⟩ 7 ['x'] none
      = (⟨[⟨1, 7, ['x'], none⟩], [], [], 2⟩, none)
    ∧ createChunk embedOk3 ⟨[], [], [], 1⟩ 7 ['x'] none
      = (⟨[⟨1, 7, ['x'], none⟩], [(1, [3])], [(1, ['x'])], 2⟩, some 1) :=
  ⟨(claim_C1_create_partial_on_failure embedFail ⟨[], [], [], 1⟩ 7 ['x'] none).1
      rfl,
   (claim_C1_create_partial_on_failure embedOk3 ⟨[], [], [], 1⟩ 7 ['x'] none).2
      [3] rfl⟩

theorem mem_dedupFirst {α : Type} [DecidableEq α] :
    ∀ (seen l : List α) (a : α), a ∈ dedupFirst seen l → a ∈ l
  | _, [], a, h => by simp [dedupFirst] at h
  | seen, k :: rest, a, h => by
    by_cases hk : k ∈ seen
    · simp only [dedupFirst, if_pos hk] at h
      exact List.mem_cons_of_mem k (mem_dedupFirst _ _ _ h)
    · simp only [dedupFirst, if_neg hk] at h
      rcases List.mem_cons.mp h with h | h
      · simp [h]
      · exact List.mem_cons_of_mem k (mem_dedupFirst _ _ _ h)

/-- Claim C2: `search_chunks_hybrid` returns exactly the union of the chunk ids
of its vector-ranked candidate list (pool size `limit*3`) and its FTS-ranked
candidate list, each scored `1/(k + vector_rank) + 1/(k + fts_rank)` with a
missing appearance contributing 0, sorted descending by that score and
truncated to `limit`; a chunk appearing in neither list never appears in the
result. -/
theorem claim_C2_hybrid_rrf (vecRanking ftsRanking : List Nat) (lim k : Nat) :
    (∀ p ∈ searchChunksHybrid vecRanking ftsRanking lim k,
        (p.1 ∈ vecRanking.take (lim * 3) ∨ p.1 ∈ ftsRanking)
        ∧ p.2 = rrfScore k (vecRanking.take (lim * 3)) ftsRanking p.1)
    ∧ List.Sorted scoreDesc (searchChunksHybrid vecRanking ftsRanking lim k)
    ∧ (searchChunksHybrid vecRanking ftsRanking lim k).length
        = min lim (dedupFirst [] (vecRanking.take (lim * 3) ++ ftsRanking)).length
    ∧ ∀ cid s, cid ∉ vecRanking → cid ∉ ftsRanking →
        (cid, s) ∉ searchChunksHybrid vecRanking ftsRanking lim k := by
  have hmem : ∀ p ∈ searchChunksHybrid vecRanking ftsRanking lim k,
      (p.1 ∈ vecRanking.take (lim * 3) ∨ p.1 ∈ ftsRanking)
      ∧ p.2 = rrfScore k (vecRanking.take (lim * 3)) ftsRanking p.1 := by
    intro p hp
    simp only [searchChunksHybrid] at hp
    have h1 := List.take_subset _ _ hp
    rw [List.mem_insertionSort] at h1
    obtain ⟨cid, hcid, heq⟩ := List.mem_map.mp h1
    have hunion := List.mem_append.mp (mem_dedupFirst _ _ _ hcid)
    constructor
    · rw [← heq]
      exact hunion
    · rw [← heq]
  refine ⟨hmem, ?_, ?_, ?_⟩
  · have hs : List.Sorted scoreDesc
        (List.insertionSort scoreDesc
          ((dedupFirst [] (vecRanking.take (lim * 3) ++ ftsRanking)).map
            fun cid => (cid, rrfScore k (vecRanking.take (lim * 3)) ftsRanking cid))) :=
      List.sorted_insertionSort scoreDesc _
    simpa only [searchChunksHybrid] using
      List.Pairwise.sublist (List.take_sublist _ _) hs
  · have hperm := (List.perm_insertionSort scoreDesc
      ((dedupFirst [] (vecRanking.take (lim * 3) ++ ftsRanking)).map
        fun cid => (cid, rrfScore k (vecRanking.take (lim * 3)) ftsRanking cid))).length_eq
    simp only [searchChunksHybrid, List.length_take, hperm, List.length_map]
  · intro cid s h1 h2 hmem2
    rcases (hmem _ hmem2).1 with h | h
    · exact h1 (List.take_subset _ _ h)
    · exact h2 h

/-- Witness for C2 at concrete rankings. -/
theorem claim_C2_witness :
    List.Sorted scoreDesc (searchChunksHybrid [1, 2, 3] [2, 4] 2 60)
    ∧ ∀ s, (9, s) ∉ searchChunksHybrid [1, 2, 3] [2, 4] 2 60 :=
  ⟨(claim_C2_hybrid_rrf [1, 2, 3] [2, 4] 2 60).2.1,
   fun s => (claim_C2_hybrid_rrf [1, 2, 3] [2, 4] 2 60).2.2.2 9 s
     (by decide) (by decide)⟩

/-- Claim C6 counterexample: The claim says every whitespace-delimited word is
returned lower-cased; `extract_keywords` returns words in their original
case (the lower-cased form is only used for the stop-word test):
`extract_keywords("Hello") = ["Hello"]`, not `["hello"]`. -/
theorem claim_C6_counterexample :
    extractKeywords "Hello".data = ["Hello".data]
    ∧ pyLowerStr "Hello".data = "hello".data
    ∧ extractKeywords "Hello".data ≠ ["hello".data] := by
  refine ⟨by decide, by decide, by decide⟩

/-- Claim C6, amended: `extract_keywords` equals its spec-level description:
the CJK-side extractions (digit runs, CJK runs of length ≥ 2, and all
maximal CJK runs — the explicit grouping loop produces exactly the maximal
runs) happen only when the cleaned query contains a CJK character; words are
kept in their original case subject to the stop-word/length filters; first
occurrences are kept on deduplication. -/
theorem claim_C6_keywords (q : List Char) :
    extractKeywords q = extractKeywordsSpec q := by
  unfold extractKeywords extractKeywordsSpec
  by_cases hq : (cleanQuery q).any isCJK
  · have hf : ((cleanQuery q).filter isCJK).isEmpty = false := by
      obtain ⟨c, hc, hcjk⟩ := List.any_eq_true.mp hq
      have hmem : c ∈ (cleanQuery q).filter isCJK := List.mem_filter.mpr ⟨hc, hcjk⟩
      rcases h2 : (cleanQuery q).filter isCJK with _ | ⟨d, t⟩
      · rw [h2] at hmem
        simp at hmem
      · simp
    simp only [hq, if_true, hf, Bool.false_eq_true, if_false,
      groupCJKGo_eq_maxRunsGo, maxRuns]
  · simp only [hq, Bool.false_eq_true, if_false]

theorem pyLower_eq_of_cjk {c d : Char} (hc : 0x4e00 ≤ c.toNat)
    (h : pyLower d = c) : d = c := by
  unfold pyLower at h
  split at h <;>
    first
    | exact h
    | (subst h; exact absurd hc (by decide))

theorem pyLower_fix_cjk {c : Char} (hc : 0x4e00 ≤ c.toNat) : pyLower c = c := by
  unfold pyLower
  split <;>
    first
    | rfl
    | exact absurd hc (by decide)

theorem isSub_singleton (c : Char) :
    ∀ l : List Char, isSub [c] l = true ↔ c ∈ l
  | [] => by simp [isSub, isPre]
  | d :: rest => by
    simp [isSub, isPre, isSub_singleton c rest, List.mem_cons]

theorem mem_pyLowerStr_of_cjk {c : Char} (hc : 0x4e00 ≤ c.toNat)
    (l : List Char) : c ∈ pyLowerStr l ↔ c ∈ l := by
  constructor
  · intro h
    obtain ⟨d, hd, hde⟩ := List.mem_map.mp h
    rw [← pyLower_eq_of_cjk hc hde]
    exact hd
  · intro h
    exact List.mem_map.mpr ⟨c, h, pyLower_fix_cjk hc⟩

/-- The +0.2 branch of the vector-search keyword boost is dead code: a
single-CJK-character keyword that fails the case-insensitive containment
test cannot be contained case-sensitively, because `str.lower` fixes CJK
characters. -/
theorem cjk_branch_dead {kw content : List Char} (hlen : kw.length = 1)
    (hcjk : kw.all isCJK = true)
    (hmiss : ¬ isSub (pyLowerStr kw) (pyLowerStr content) = true) :
    isSub kw content = false := by
  obtain ⟨c, hkw⟩ : ∃ c, kw = [c] := by
    rcases kw with _ | ⟨c, _ | ⟨d, t⟩⟩
    · simp at hlen
    · exact ⟨_, rfl⟩
    · simp at hlen
  subst hkw
  have hcc : isCJK c = true := by simpa [List.all_cons] using hcjk
  have hcn : 0x4e00 ≤ c.toNat := by
    simp only [isCJK, Bool.and_eq_true_iff, decide_eq_true_eq] at hcc
    exact hcc.1
  have hlow : pyLowerStr [c] = [c] := by
    simp [pyLowerStr, pyLower_fix_cjk hcn]
  rw [hlow] at hmiss
  by_contra hsub
  have hsub2 : isSub [c] content = true := by
    simpa using hsub
  have hmemc : c ∈ content := (isSub_singleton c content).mp hsub2
  have : c ∈ pyLowerStr content := (mem_pyLowerStr_of_cjk hcn content).mpr hmemc
  exact hmiss ((isSub_singleton c (pyLowerStr content)).mpr this)

theorem keywordBoost_eq_spec (keywords : List (List Char))
    (content : List Char) :
    keywordBoost keywords content = keywordBoostSpec keywords content := by
  unfold keywordBoost keywordBoostSpec
  congr 1
  funext acc kw
  by_cases h1 : isSub (pyLowerStr kw) (pyLowerStr content) = true
  · simp [h1]
  · by_cases h2 : (kw.length = 1 && kw.all isCJK) = true
    · have h2p : kw.length = 1 ∧ kw.all isCJK = true := by
        simpa [Bool.and_eq_true_iff] using h2
      have hdead := cjk_branch_dead h2p.1 h2p.2 h1
      simp [h1, h2, hdead]
    · simp [h1, h2]

/-- Claim C3 counterexample: The claim adds, on top of the +0.3
case-insensitive-presence boost, +0.2 per single CJK keyword character
present case-sensitively.  For the query `中` against a chunk containing
`中` at distance 0 the code scores `1/(1+0) + 0.3 = 1.3`, not
`1 + 0.3 + 0.2 = 1.5`: the +0.2 branch is unreachable for present keywords
(it sits behind a failed case-insensitive test that cannot fail for a
present CJK character). -/
theorem claim_C3_counterexample :
    searchChunks [⟨1, 1, "中".data, 0⟩] "中".data 5
      = [(⟨1, 1, "中".data, 0⟩, 13/10)]
    ∧ (13/10 : ℚ) ≠ 1/(1+0) + 0.3 + 0.2 := by
  constructor
  · have hkw : extractKeywords "中".data = [['中']] := by decide
    have hsub : isSub (pyLowerStr ['中']) (pyLowerStr "中".data) = true := by decide
    have hdig : isPyDigit ['中'] = false := by decide
    norm_num [searchChunks, hkw, keywordBoost, hsub, hdig,
      List.insertionSort, List.orderedInsert]
  · norm_num

/-- Claim C3, amended: `search_chunks` fetches the `min(limit*10, 100)`
nearest chunks by vector distance, converts distance `d` to `1/(1+d)`, and
adds +0.3 per extracted keyword present case-insensitively in the content
plus +0.5 more if the keyword is purely numeric (the source's +0.2
single-CJK-character branch can never fire for a present keyword and
contributes nothing); then re-sorts by boosted score descending and
truncates to `limit`. -/
theorem claim_C3_vector_search (index : List VecHit) (query : List Char)
    (lim : Nat) :
    searchChunks index query lim = searchChunksSpec index query lim := by
  unfold searchChunks searchChunksSpec
  simp only [keywordBoost_eq_spec]

/-- Claim C4: Chunking the empty string returns the empty sequence; for every
non-empty text whose preprocessed token count is at most `chunk_size`
(including exactly `chunk_size`), `chunk` returns exactly one chunk — the
whole preprocessed text.  The tokenizer is any encoder/decoder pair that
round-trips and encodes the empty text to no tokens, which is how the source
uses tiktoken. -/
theorem claim_C4_small_text_single_chunk {τ : Type} (C : Chunker τ)
    (hrt : ∀ l, C.dec (C.enc l) = l) (henc : C.enc [] = [])
    (hcs : 1 ≤ C.chunkSize) :
    chunk C [] = []
    ∧ ∀ text, text ≠ [] → (C.enc (preprocessText text)).length ≤ C.chunkSize →
        chunk C text = [preprocessText text] := by
  constructor
  · simp [chunk]
  · intro text hne hlen
    have hne2 : text.isEmpty = false := by simpa [List.isEmpty_iff] using hne
    rcases lt_or_eq_of_le hlen with hlt | heq
    · simp [chunk, hne2, hlt]
    · have hnotlt : ¬ (C.enc (preprocessText text)).length < C.chunkSize := by
        omega
      have hpos : 0 < (C.enc (preprocessText text)).length := by omega
      have htne : preprocessText text ≠ [] := by
        intro h0
        rw [h0, henc] at hpos
        simp at hpos
      have hstrip : stripWs (preprocessText text) = preprocessText text := by
        unfold preprocessText
        exact stripWs_idem _
      have hmin : min (0 + C.chunkSize) (C.enc (preprocessText text)).length
          = (C.enc (preprocessText text)).length := by omega
      have hloop : chunkLoop C (C.enc (preprocessText text)) 0
          = [preprocessText text] := by
        rw [chunkLoop, if_pos hpos]
        simp only [hmin, lt_self_iff_false, if_false, List.drop_zero,
          Nat.sub_zero, List.take_length, hrt, hstrip, le_refl, if_true]
        simp [List.isEmpty_iff, htne]
      simp [chunk, hne2, hnotlt, hloop]

/-- Witness for C4 with the character tokenizer on a two-character text and
`chunk_size = 5`. -/
theorem claim_C4_witness :
    chunk (charChunker 5 1) [] = []
    ∧ chunk (charChunker 5 1) "hi".data = [preprocessText "hi".data] :=
  ⟨(claim_C4_small_text_single_chunk (charChunker 5 1) (fun _ => rfl) rfl
      (by decide)).1,
   (claim_C4_small_text_single_chunk (charChunker 5 1) (fun _ => rfl) rfl
      (by decide)).2 "hi".data (by decide) (by decide)⟩

theorem abs_natCast_sub (i t : ℕ) :
    |(i : ℚ) - (t : ℚ)| = ((max i t - min i t : ℕ) : ℚ) := by
  rcases le_total i t with h | h
  · rw [abs_sub_comm, abs_of_nonneg (sub_nonneg.mpr (by exact_mod_cast h)),
      max_eq_right h, min_eq_left h, Nat.cast_sub h]
  · rw [abs_of_nonneg (sub_nonneg.mpr (by exact_mod_cast h)),
      max_eq_left h, min_eq_right h, Nat.cast_sub h]

theorem rawScore_nonneg (t : List Char) (i : Nat) : 0 ≤ rawScore t i := by
  unfold rawScore
  split_ifs <;> norm_num

theorem fbspFold_cons (t : List Char) (target w : Nat) (i : Nat)
    (rest : List Nat) (bp : Nat) (bs : ℚ) :
    fbspFold t target w (i :: rest) (bp, bs)
      = if bs < finalScore t target w i then
          fbspFold t target w rest
            ((if 0 < rawScore t i then i + 1 else i), finalScore t target w i)
        else fbspFold t target w rest (bp, bs) := rfl

/-- The loop of `_find_best_split_point` computes the first strict maximum
of the penalized scores: starting from a nonnegative best score, either no
candidate beats it and the accumulator is returned unchanged, or the result
records `i + 1` for the earliest candidate `i` whose score strictly exceeds
the initial best and every other candidate's score (strictly for earlier
candidates, weakly for later ones). -/
theorem fbspFold_spec (t : List Char) (target w : Nat) :
    ∀ (idxs : List Nat) (bp : Nat) (bs : ℚ), 0 ≤ bs →
      (fbspFold t target w idxs (bp, bs) = (bp, bs)
        ∧ ∀ i ∈ idxs, finalScore t target w i ≤ bs)
      ∨ (∃ pre i post, idxs = pre ++ i :: post
          ∧ fbspFold t target w idxs (bp, bs) = (i + 1, finalScore t target w i)
          ∧ bs < finalScore t target w i
          ∧ (∀ j ∈ pre, finalScore t target w j < finalScore t target w i)
          ∧ (∀ j ∈ post, finalScore t target w j ≤ finalScore t target w i))
  | [], bp, bs, _ => Or.inl ⟨rfl, by simp⟩
  | i :: rest, bp, bs, hbs => by
    by_cases hlt : bs < finalScore t target w i
    · have hfs : (0 : ℚ) < finalScore t target w i := lt_of_le_of_lt hbs hlt
      have hs : 0 < rawScore t i := by
        by_contra hns
        have h0 : rawScore t i = 0 :=
          le_antisymm (not_lt.mp hns) (rawScore_nonneg t i)
        rw [finalScore, h0, zero_mul] at hfs
        exact lt_irrefl 0 hfs
      have hstep : fbspFold t target w (i :: rest) (bp, bs)
          = fbspFold t target w rest (i + 1, finalScore t target w i) := by
        rw [fbspFold_cons, if_pos hlt, if_pos hs]
      rcases fbspFold_spec t target w rest (i + 1) (finalScore t target w i)
          (le_of_lt hfs) with
        ⟨heq, hall⟩ | ⟨pre, j, post, hsplit, heq, hgt, hpre, hpost⟩
      · right
        exact ⟨[], i, rest, by simp, by rw [hstep, heq], hlt, by simp, hall⟩
      · right
        refine ⟨i :: pre, j, post, by simp [hsplit], by rw [hstep, heq],
          lt_trans hlt hgt, ?_, hpost⟩
        intro x hx
        rcases List.mem_cons.mp hx with rfl | hx
        · exact hgt
        · exact hpre x hx
    · have hstep : fbspFold t target w (i :: rest) (bp, bs)
          = fbspFold t target w rest (bp, bs) := by
        rw [fbspFold_cons, if_neg hlt]
      rcases fbspFold_spec t target w rest bp bs hbs with
        ⟨heq, hall⟩ | ⟨pre, j, post, hsplit, heq, hgt, hpre, hpost⟩
      · left
        refine ⟨by rw [hstep, heq], ?_⟩
        intro x hx
        rcases List.mem_cons.mp hx with rfl | hx
        · exact not_lt.mp hlt
        · exact hall x hx
      · right
        refine ⟨i :: pre, j, post, by simp [hsplit], by rw [hstep, heq], hgt,
          ?_, hpost⟩
        intro x hx
        rcases List.mem_cons.mp hx with rfl | hx
        · exact lt_of_le_of_lt (not_lt.mp hlt) hgt
        · exact hpre x hx

/-- Claim C5, amended: `_find_best_split_point` scores each candidate offset
in the window as the claim states, but the scan keeps the *first* strict
maximum in left-to-right order — ties are resolved in favor of the earliest
candidate, not the one closest to the target — and it returns that offset
plus one (the position after the scoring character); when no candidate
scores above zero it returns the original target offset. -/
theorem claim_C5_split_point (t : List Char) (targetPos : Nat) :
    (findBestSplitPoint t targetPos = targetPos
      ∧ ∀ i ∈ List.range' (targetPos - min 100 (t.length / 4))
          (min t.length (targetPos + min 100 (t.length / 4))
            - (targetPos - min 100 (t.length / 4))),
          finalScore t targetPos (min 100 (t.length / 4)) i ≤ 0)
    ∨ (∃ pre i post,
        List.range' (targetPos - min 100 (t.length / 4))
          (min t.length (targetPos + min 100 (t.length / 4))
            - (targetPos - min 100 (t.length / 4))) = pre ++ i :: post
        ∧ findBestSplitPoint t targetPos = i + 1
        ∧ 0 < finalScore t targetPos (min 100 (t.length / 4)) i
        ∧ (∀ j ∈ pre, finalScore t targetPos (min 100 (t.length / 4)) j
            < finalScore t targetPos (min 100 (t.length / 4)) i)
        ∧ (∀ j ∈ post, finalScore t targetPos (min 100 (t.length / 4)) j
            ≤ finalScore t targetPos (min 100 (t.length / 4)) i)) := by
  rcases fbspFold_spec t targetPos (min 100 (t.length / 4))
      (List.range' (targetPos - min 100 (t.length / 4))
        (min t.length (targetPos + min 100 (t.length / 4))
          - (targetPos - min 100 (t.length / 4))))
      targetPos 0 le_rfl with
    ⟨heq, hall⟩ | ⟨pre, i, post, hsplit, heq, hgt, hpre, hpost⟩
  · left
    constructor
    · show (fbspFold t targetPos (min 100 (t.length / 4)) _ (targetPos, 0)).1
        = targetPos
      rw [heq]
    · exact hall
  · right
    refine ⟨pre, i, post, hsplit, ?_, hgt, hpre, hpost⟩
    show (fbspFold t targetPos (min 100 (t.length / 4)) _ (targetPos, 0)).1
      = i + 1
    rw [heq]

/-- Claim C5 counterexample: The claim resolves score ties by proximity to
the target, which would pick offset 10 (distance 2) over offset 5
(distance 3) and return 10 (or 11 counting the character itself); the code
keeps the first maximum in scan order and returns `5 + 1 = 6`. -/
theorem claim_C5_counterexample :
    findBestSplitPoint cxSplitText 8 = 6
    ∧ finalScore cxSplitText 8 4 5 = finalScore cxSplitText 8 4 10
    ∧ 10 - 8 < 8 - 5
    ∧ (6 : ℕ) ≠ 10 ∧ (6 : ℕ) ≠ 11 := by
  have h4 : rawScore cxSplitText 4 = 0 := by
    simp [rawScore, cxSplitText, chineseEndings]
  have h5 : rawScore cxSplitText 5 = 10 := by
    simp [rawScore, cxSplitText, chineseEndings]
  have h6 : rawScore cxSplitText 6 = 0 := by
    simp [rawScore, cxSplitText, chineseEndings]
  have h7 : rawScore cxSplitText 7 = 0 := by
    simp [rawScore, cxSplitText, chineseEndings]
  have h8 : rawScore cxSplitText 8 = 0 := by
    simp [rawScore, cxSplitText, chineseEndings]
  have h9 : rawScore cxSplitText 9 = 0 := by
    simp [rawScore, cxSplitText, chineseEndings]
  have h10 : rawScore cxSplitText 10 = 5 := by
    simp [rawScore, cxSplitText, chineseEndings]
  have h11 : rawScore cxSplitText 11 = 0 := by
    simp [rawScore, cxSplitText, chineseEndings]
  have hlen : cxSplitText.length = 16 := rfl
  refine ⟨?_, ?_, by decide, by decide, by decide⟩
  · norm_num [findBestSplitPoint, hlen, List.range', fbspFold,
      h4, h5, h6, h7, h8, h9, h10, h11, abs_natCast_sub]
  · norm_num [finalScore, h5, h10, abs_natCast_sub]

theorem mem_dedupHits :
    ∀ (seen : List Nat) (l : List FtsHit) (h : FtsHit),
      h ∈ dedupHits seen l → h ∈ l
  | _, [], h, hh => by simp [dedupHits] at hh
  | seen, k :: rest, h, hh => by
    by_cases hk : k.id ∈ seen
    · simp only [dedupHits, if_pos hk] at hh
      exact List.mem_cons_of_mem k (mem_dedupHits _ _ _ hh)
    · simp only [dedupHits, if_neg hk] at hh
      rcases List.mem_cons.mp hh with hh | hh
      · simp [hh]
      · exact List.mem_cons_of_mem k (mem_dedupHits _ _ _ hh)

/-- Claim C7 counterexample: For the query `!!` the keyword list is empty, so
`process_for_fts` returns the raw query; when the index rejects it, the
`except` branch finds no keywords and never retries: the result is the empty
list, although the engine would have returned a row for the OR-of-keywords
query (or any other query) had the claimed retry happened. -/
theorem claim_C7_counterexample :
    cxFtsEngine (processForFts "!!".data) = .error ()
    ∧ cxFtsEngine (joinWith (" OR ".data) (extractKeywords "!!".data))
        = .ok [⟨1, 1, ['x'], -1⟩]
    ∧ searchChunksFts cxFtsEngine "!!".data 5 = .ok [] :=
  ⟨rfl, rfl, rfl⟩

/-- Claim C7, amended: When the generated lexical query is rejected by the
index *and at least one keyword was extracted*, `search_chunks_fts` retries
with the simple OR-of-keywords query without surfacing the first failure:
the result is `ok`, built from the retry's rows (limited to
`min(limit*5, 50)`), deduplicated by id, scored `-rank` plus 0.2 per
keyword contained case-insensitively, sorted descending by score and
truncated to `limit`.  (With no extracted keywords the failure is still
swallowed but no retry happens and the result is empty — the
counterexample.) -/
theorem claim_C7_fts_fallback
    (ftsEngine : List Char → Except Unit (List FtsHit)) (query : List Char)
    (lim : Nat) (rows : List FtsHit)
    (hfail : ftsEngine (processForFts query) = .error ())
    (hkw : (extractKeywords query).isEmpty = false)
    (hok : ftsEngine (joinWith (" OR ".data) (extractKeywords query))
      = .ok rows) :
    ∃ out, searchChunksFts ftsEngine query lim = .ok out
      ∧ (∀ p ∈ out,
          p.2 = -p.1.rank + ftsKeywordBoost (extractKeywords query) p.1.content
          ∧ p.1 ∈ rows.take (min (lim * 5) 50))
      ∧ List.Sorted scoreDesc out
      ∧ out.length ≤ lim := by
  refine ⟨(List.insertionSort scoreDesc
      ((dedupHits [] (rows.take (min (lim * 5) 50))).map
        fun r => (r, -r.rank + ftsKeywordBoost (extractKeywords query)
          r.content))).take lim, ?_, ?_, ?_, ?_⟩
  · simp only [searchChunksFts, hfail, hkw, hok, Bool.false_eq_true, if_false]
  · intro p hp
    have h1 := List.take_subset _ _ hp
    rw [List.mem_insertionSort] at h1
    obtain ⟨r, hr, heq⟩ := List.mem_map.mp h1
    constructor
    · rw [← heq]
    · rw [← heq]
      exact mem_dedupHits _ _ _ hr
  · exact List.Pairwise.sublist (List.take_sublist _ _)
      (List.sorted_insertionSort scoreDesc _)
  · rw [List.length_take]
    exact min_le_left _ _

/-- Witness for C7 (amended): the first failure is recovered and an `ok`
result of at most `limit` rows is returned. -/
theorem claim_C7_witness :
    ∃ out, searchChunksFts wFtsEngine "aa bb".data 3 = .ok out
      ∧ out.length ≤ 3 := by
  obtain ⟨out, h1, _, _, h4⟩ :=
    claim_C7_fts_fallback wFtsEngine "aa bb".data 3 [⟨2, 1, "aa".data, -2⟩]
      rfl (by decide) rfl
  exact ⟨out, h1, h4⟩

theorem createLoop_spec (embed : List Char → Option (List Int))
    (documentId : Nat) :
    ∀ (texts : List (List Char)) (st : StoreState) (ord : Nat),
      (∀ t ∈ texts, embed t ≠ none) →
      (createLoop embed documentId st ord texts).2 = true
      ∧ (createLoop embed documentId st ord texts).1.chunks
          = st.chunks ++ mkRows documentId st.nextId ord texts
  | [], st, ord, _ => by simp [createLoop, mkRows]
  | t :: rest, st, ord, hemb => by
    obtain ⟨v, hv⟩ := Option.ne_none_iff_exists'.mp (hemb t (by simp))
    have hcc : createChunk embed st documentId t (some ord)
        = (⟨st.chunks ++ [⟨st.nextId, documentId, t, some ord⟩],
            st.embeddings ++ [(st.nextId, v)],
            st.ftsIndex ++ [(st.nextId, t)],
            st.nextId + 1⟩, some st.nextId) := by
      simp [createChunk, hv]
    have ih := createLoop_spec embed documentId rest
      ⟨st.chunks ++ [⟨st.nextId, documentId, t, some ord⟩],
        st.embeddings ++ [(st.nextId, v)],
        st.ftsIndex ++ [(st.nextId, t)],
        st.nextId + 1⟩ (ord + 1)
      (fun x hx => hemb x (by simp [hx]))
    have hstep : createLoop embed documentId st ord (t :: rest)
        = createLoop embed documentId
            ⟨st.chunks ++ [⟨st.nextId, documentId, t, some ord⟩],
              st.embeddings ++ [(st.nextId, v)],
              st.ftsIndex ++ [(st.nextId, t)],
              st.nextId + 1⟩ (ord + 1) rest := by
      show (match createChunk embed st documentId t (some ord) with
        | (st1, none) => (st1, false)
        | (st1, some _) => createLoop embed documentId st1 (ord + 1) rest) = _
      rw [hcc]
    rw [hstep]
    refine ⟨ih.1, ?_⟩
    rw [ih.2]
    simp [mkRows]

theorem mkRows_filter (documentId : Nat) :
    ∀ (nid ord : Nat) (texts : List (List Char)),
      (mkRows documentId nid ord texts).filter
        (fun r => r.documentId == documentId) = mkRows documentId nid ord texts
  | _, _, [] => rfl
  | nid, ord, t :: rest => by
    simp [mkRows, List.filter_cons,
      mkRows_filter documentId (nid + 1) (ord + 1) rest]

theorem mkRows_orderMeta (documentId : Nat) :
    ∀ (nid ord : Nat) (texts : List (List Char)) (r : ChunkRow),
      r ∈ mkRows documentId nid ord texts → ∃ o, r.orderMeta = some o ∧ ord ≤ o
  | _, _, [], r, h => by simp [mkRows] at h
  | nid, ord, t :: rest, r, h => by
    rcases List.mem_cons.mp h with rfl | h2
    · exact ⟨ord, rfl, le_refl ord⟩
    · obtain ⟨o, ho, hle⟩ :=
        mkRows_orderMeta documentId (nid + 1) (ord + 1) rest r h2
      exact ⟨o, ho, by omega⟩

theorem mkRows_sorted (documentId : Nat) :
    ∀ (nid ord : Nat) (texts : List (List Char)),
      List.Sorted
        (fun a b : ChunkRow => orderKeyLe a.orderMeta b.orderMeta = true)
        (mkRows documentId nid ord texts)
  | _, _, [] => List.sorted_nil
  | nid, ord, t :: rest => by
    rw [mkRows, List.sorted_cons]
    refine ⟨?_, mkRows_sorted documentId (nid + 1) (ord + 1) rest⟩
    intro r hr
    obtain ⟨o, ho, hle⟩ :=
      mkRows_orderMeta documentId (nid + 1) (ord + 1) rest r hr
    show orderKeyLe (some ord) r.orderMeta = true
    rw [ho]
    simp only [orderKeyLe, decide_eq_true_eq]
    omega

theorem mkRows_map (documentId : Nat) :
    ∀ (nid ord : Nat) (texts : List (List Char)),
      (mkRows documentId nid ord texts).map (fun r => (r.content, r.orderMeta))
        = (List.enumFrom ord texts).map (fun p => (p.2, some p.1))
  | _, _, [] => rfl
  | nid, ord, t :: rest => by
    simp [mkRows, List.enumFrom,
      mkRows_map documentId (nid + 1) (ord + 1) rest]

/-- Claim C9: On a store holding no chunks of the document,
`create_chunks_for_document` creates one chunk per element of the chunker's
output in sequence, storing `order` = the position in that sequence, and a
subsequent `get_by_document_id` returns exactly those chunks sorted by the
stored order — the original chunk-sequence order.  (The embedder is assumed
to succeed on each chunk text; a failure aborts the loop and is covered by
claim C1.) -/
theorem claim_C9_order_roundtrip {τ : Type} (C : Chunker τ)
    (embed : List Char → Option (List Int)) (st : StoreState)
    (documentId : Nat) (content : List Char)
    (hembed : ∀ t ∈ chunk C content, embed t ≠ none)
    (hfresh : ∀ r ∈ st.chunks, r.documentId ≠ documentId) :
    (createChunksForDocument C embed st documentId content).2 = true
    ∧ (getByDocumentId
        (createChunksForDocument C embed st documentId content).1
        documentId).map (fun r => (r.content, r.orderMeta))
      = (List.enumFrom 0 (chunk C content)).map (fun p => (p.2, some p.1)) := by
  obtain ⟨hok, hchunks⟩ :=
    createLoop_spec embed documentId (chunk C content) st 0 hembed
  refine ⟨hok, ?_⟩
  unfold getByDocumentId createChunksForDocument
  rw [hchunks, List.filter_append]
  have hfilter1 : st.chunks.filter (fun r => r.documentId == documentId) = [] := by
    rw [List.filter_eq_nil_iff]
    intro r hr
    simpa using hfresh r hr
  rw [hfilter1, List.nil_append, mkRows_filter,
    List.Sorted.insertionSort_eq
      (mkRows_sorted documentId st.nextId 0 (chunk C content)),
    mkRows_map]

/-- Witness for C9 on an empty store and a two-character document. -/
theorem claim_C9_witness :
    (createChunksForDocument (charChunker 5 1) wEmbed ⟨[], [], [], 0⟩ 1
      "ab".data).2 = true
    ∧ (getByDocumentId (createChunksForDocument (charChunker 5 1) wEmbed
        ⟨[], [], [], 0⟩ 1 "ab".data).1 1).map
          (fun r => (r.content, r.orderMeta))
      = (List.enumFrom 0 (chunk (charChunker 5 1) "ab".data)).map
          (fun p => (p.2, some p.1)) :=
  claim_C9_order_roundtrip (charChunker 5 1) wEmbed ⟨[], [], [], 0⟩ 1 "ab".data
    (fun t _ => by simp [wEmbed])
    (fun r hr => by simp at hr)

end HaikuRag
